import Mathlib

/-!
Verification of the rustomp frame codec (src/frame/mod.rs, src/frame/string.rs,
src/frame/io.rs, src/frame/error.rs).

The byte source is modelled as a `List Char`: the Rust code decodes every
command and header line through `str::from_utf8` before processing it, and all
per-character operations (`split`, `trim`, `chars`) act on chars.  Byte counts
(the `take` budgets, `write` return values) coincide with char counts for
ASCII traffic; where a theorem depends on a byte budget it carries an explicit
UTF-8 size hypothesis so that the char-level `take` agrees with Rust's
byte-level `take`.  Raw body bytes in the io layer are modelled as `List Nat`.
-/

/-- Convenience: the character list of a string literal. -/
def cs (s : String) : List Char := s.data

/-- UTF-8 encoded size in bytes of one char. -/
def utf8CharLen (c : Char) : Nat :=
  if c.toNat < 0x80 then 1 else if c.toNat < 0x800 then 2
  else if c.toNat < 0x10000 then 3 else 4

/-- UTF-8 encoded size in bytes of a char list (Rust `str::len`). -/
def utf8Len (l : List Char) : Nat := (l.map utf8CharLen).sum

/-- Rust `char::is_whitespace`: the Unicode White_Space property. -/
def rustIsWhitespace (c : Char) : Bool :=
  let n := c.toNat
  (0x09 ≤ n && n ≤ 0x0D) || n == 0x20 || n == 0x85 || n == 0xA0 ||
  n == 0x1680 || (0x2000 ≤ n && n ≤ 0x200A) || n == 0x2028 || n == 0x2029 ||
  n == 0x202F || n == 0x205F || n == 0x3000

/-- Rust `str::trim_start`: drop leading whitespace. -/
def trimStartWs (l : List Char) : List Char := l.dropWhile rustIsWhitespace

/-- Rust `str::trim_end`: drop trailing whitespace. -/
def trimEndWs (l : List Char) : List Char :=
  (l.reverse.dropWhile rustIsWhitespace).reverse

/-- Rust `str::trim`: drop whitespace at both ends. -/
def trimBoth (l : List Char) : List Char := trimEndWs (trimStartWs l)

/-- Rust `str::trim_end_matches(c)`: drop every trailing occurrence of `c`. -/
def trimEndM (c : Char) (l : List Char) : List Char :=
  (l.reverse.dropWhile (fun x => x == c)).reverse

/-- Rust `char::to_lowercase` restricted to ASCII (exact for ASCII input; every
name this development case-folds is constrained to ASCII). -/
def asciiLower (c : Char) : Char :=
  if 'A' ≤ c ∧ c ≤ 'Z' then Char.ofNat (c.toNat + 32) else c

/-- Rust `str::to_lowercase` restricted to ASCII. -/
def toLowerL (l : List Char) : List Char := l.map asciiLower

/- ### Escape codec, src/frame/string.rs -/

/-- `encode` from src/frame/string.rs lines 7-20: each char maps to itself
unless it is one of the four specials, which map to two-char escapes. -/
def encode : List Char → List Char
  | [] => []
  | c :: rest =>
    (if c = '\\' then ['\\', '\\']
     else if c = '\r' then ['\\', 'r']
     else if c = '\n' then ['\\', 'n']
     else if c = ':' then ['\\', 'c']
     else [c]) ++ encode rest

/-- The output-accumulating loop of `decode` from src/frame/string.rs lines
22-42; `last` is the `last_char` state (initially NULL = `'\x00'`). -/
def decodeGo (last : Char) : List Char → List Char
  | [] => []
  | c :: rest =>
    (if c = 'c' ∧ last = '\\' then [':']
     else if c = 'n' ∧ last = '\\' then ['\n']
     else if c = 'r' ∧ last = '\\' then ['\r']
     else if c = '\\' ∧ last = '\\' then ['\\']
     else if c = '\\' then []
     else [c]) ++
    decodeGo (if last = '\\' ∧ c = '\\' then '\x00' else c) rest

/-- The final value of decode's `last_char` state after consuming the input. -/
def decodeSt (last : Char) : List Char → Char
  | [] => last
  | c :: rest => decodeSt (if last = '\\' ∧ c = '\\' then '\x00' else c) rest

/-- `decode` from src/frame/string.rs lines 22-42. -/
def decode (s : List Char) : List Char := decodeGo '\x00' s

lemma decodeSt_cons (last c : Char) (rest : List Char) :
    decodeSt last (c :: rest) =
      decodeSt (if last = '\\' ∧ c = '\\' then '\x00' else c) rest := rfl

lemma decodeGo_append (xs ys : List Char) : ∀ last,
    decodeGo last (xs ++ ys) =
      decodeGo last xs ++ decodeGo (decodeSt last xs) ys := by
  induction xs with
  | nil => intro last; simp [decodeGo, decodeSt]
  | cons c rest ih =>
    intro last
    simp only [List.cons_append, decodeGo, decodeSt_cons, List.append_eq, ih,
      List.append_assoc]

lemma decodeGo_encode (s : List Char) : ∀ last, last ≠ '\\' →
    decodeGo last (encode s) = s := by
  induction s with
  | nil => intro last _; simp [encode, decodeGo]
  | cons c rest ih =>
    intro last hlast
    by_cases h1 : c = '\\'
    · subst h1
      show decodeGo last (['\\', '\\'] ++ encode rest) = '\\' :: rest
      rw [decodeGo_append]
      have h2 : decodeGo last ['\\', '\\'] = ['\\'] := by
        simp [decodeGo, hlast]
      have h3 : decodeSt last ['\\', '\\'] = '\x00' := by
        simp [decodeSt, hlast]
      rw [h2, h3, ih '\x00' (by decide)]
      rfl
    · by_cases h2 : c = '\r'
      · subst h2
        show decodeGo last (['\\', 'r'] ++ encode rest) = '\r' :: rest
        rw [decodeGo_append]
        have h3 : decodeGo last ['\\', 'r'] = ['\r'] := by
          simp [decodeGo, hlast]
        have h4 : decodeSt last ['\\', 'r'] = 'r' := by
          simp [decodeSt, hlast]
        rw [h3, h4, ih 'r' (by decide)]
        rfl
      · by_cases h3 : c = '\n'
        · subst h3
          show decodeGo last (['\\', 'n'] ++ encode rest) = '\n' :: rest
          rw [decodeGo_append]
          have h4 : decodeGo last ['\\', 'n'] = ['\n'] := by
            simp [decodeGo, hlast]
          have h5 : decodeSt last ['\\', 'n'] = 'n' := by
            simp [decodeSt, hlast]
          rw [h4, h5, ih 'n' (by decide)]
          rfl
        · by_cases h4 : c = ':'
          · subst h4
            show decodeGo last (['\\', 'c'] ++ encode rest) = ':' :: rest
            rw [decodeGo_append]
            have h5 : decodeGo last ['\\', 'c'] = [':'] := by
              simp [decodeGo, hlast]
            have h6 : decodeSt last ['\\', 'c'] = 'c' := by
              simp [decodeSt, hlast]
            rw [h5, h6, ih 'c' (by decide)]
            rfl
          · have he : encode (c :: rest) = [c] ++ encode rest := by
              simp [encode, h1, h2, h3, h4]
            rw [he, decodeGo_append]
            have h5 : decodeGo last [c] = [c] := by
              simp [decodeGo, h1, h2, h3, h4, hlast]
            have h6 : decodeSt last [c] = c := by
              simp [decodeSt, h1]
            rw [h5, h6, ih c h1]
            rfl

lemma decode_encode (s : List Char) : decode (encode s) = s :=
  decodeGo_encode s '\x00' (by decide)

/-- C4: For every string S, decode(encode(S)) == S: encoding a header string
through the escape codec (backslash, CR, LF, `:` mapped to two-character
escapes) and then decoding returns the original string. -/
theorem c4_decode_encode_id (s : List Char) : decode (encode s) = s :=
  decode_encode s

/-- C10: an input ending in a backslash that does not complete an escape pair
(the decoder's pending state before the final char is not a backslash) decodes
to exactly the decode of the input without that final backslash: the trailing
backslash is silently dropped, with no output byte and no error. -/
theorem c10_trailing_backslash (s : List Char)
    (h : decodeSt '\x00' s ≠ '\\') :
    decode (s ++ ['\\']) = decode s := by
  unfold decode
  rw [decodeGo_append]
  have : decodeGo (decodeSt '\x00' s) ['\\'] = [] := by
    simp [decodeGo, h]
  rw [this, List.append_nil]

/-- Witness for C10 at s = "ab". -/
theorem c10_trailing_backslash_witness :
    decodeSt '\x00' (cs "ab") ≠ '\\' ∧
      decode (cs "ab" ++ ['\\']) = decode (cs "ab") :=
  ⟨by decide, c10_trailing_backslash (cs "ab") (by decide)⟩

/- ### Delimited reader, src/frame/io.rs (DelimitedReadFrom) -/

/-- One `read_from` call of `DelimitedReadFrom` (src/frame/io.rs lines
113-138) before the `done` check, with buffer capacity `n`: reads upstream
bytes one at a time; a byte equal to the delimiter sets `done` and returns at
once without delivering it; upstream EOF keeps looping (delivering nothing)
until the buffer counter is exhausted.  Result: (delivered bytes, done flag,
remaining upstream). -/
def delimRead (d : Nat) : Nat → List Nat → List Nat × Bool × List Nat
  | 0, input => ([], false, input)
  | _ + 1, [] => ([], false, [])
  | n + 1, b :: rest =>
    if b = d then ([], true, rest)
    else
      let r := delimRead d n rest
      (b :: r.1, r.2.1, r.2.2)

/-- `DelimitedReadFrom::read_from` including the initial `done` check: if the
delimiter was already seen, every read returns 0 bytes and consumes nothing. -/
def delimReadFrom (d : Nat) (done : Bool) (n : Nat) (input : List Nat) :
    List Nat × Bool × List Nat :=
  if done then ([], true, input) else delimRead d n input

lemma delimRead_spec : ∀ (input : List Nat) (d n : Nat), input.length ≤ n →
    delimRead d n input =
      (input.takeWhile (fun b => !(b == d)),
       !(input.dropWhile (fun b => !(b == d))).isEmpty,
       (input.dropWhile (fun b => !(b == d))).tail) := by
  intro input
  induction input with
  | nil =>
    intro d n _
    cases n <;> simp [delimRead]
  | cons b rest ih =>
    intro d n hn
    cases n with
    | zero => simp at hn
    | succ m =>
      have hm : rest.length ≤ m := by
        simpa using Nat.succ_le_succ_iff.mp hn
      by_cases hb : b = d
      · subst hb
        simp [delimRead, List.takeWhile_cons, List.dropWhile_cons]
      · have hr := ih d m hm
        simp [delimRead, hb, hr, List.takeWhile_cons, List.dropWhile_cons,
          Ne.symm hb]

/-- C8: a delimited read with buffer room for the whole upstream delivers
exactly the bytes preceding the first delimiter, consumes the delimiter
without delivering it (done flag set, remainder starts after the delimiter),
and once `done` is set every subsequent read returns 0 bytes. -/
theorem c8_delimited_reader :
    (∀ (d : Nat) (input : List Nat) (n : Nat), input.length ≤ n →
      delimReadFrom d false n input =
        (input.takeWhile (fun b => !(b == d)),
         !(input.dropWhile (fun b => !(b == d))).isEmpty,
         (input.dropWhile (fun b => !(b == d))).tail)) ∧
    (∀ (d n : Nat) (input : List Nat),
      delimReadFrom d true n input = ([], true, input)) := by
  constructor
  · intro d input n hn
    simpa [delimReadFrom] using delimRead_spec input d n hn
  · intro d n input
    simp [delimReadFrom]

/-- Witness for C8 at delimiter 0 over [1, 2, 0, 3] with buffer room 4. -/
theorem c8_delimited_reader_witness :
    ([1, 2, 0, 3] : List Nat).length ≤ 4 ∧
      delimReadFrom 0 false 4 [1, 2, 0, 3] = ([1, 2], true, [3]) := by
  refine ⟨by decide, ?_⟩
  rw [c8_delimited_reader.1 0 [1, 2, 0, 3] 4 (by decide)]
  decide

/- ### Header table, src/frame/mod.rs -/

/-- Rust `String` ordering (`BTreeMap`'s key order): lexicographic on UTF-8
bytes, which coincides with lexicographic order on code points. -/
def keyLtB : List Char → List Char → Bool
  | [], [] => false
  | [], _ :: _ => true
  | _ :: _, [] => false
  | a :: as, b :: bs =>
    if a.toNat < b.toNat then true
    else if b.toNat < a.toNat then false
    else keyLtB as bs

/-- `Header` (src/frame/mod.rs line 160): a `BTreeMap<String, Vec<String>>`,
modelled as an association list kept sorted by key in `keyLtB` order. -/
abbrev Header := List (List Char × List (List Char))

/-- `Header::push` (src/frame/mod.rs lines 181-185): `entry(key).or_insert
(vec![]).push(value)` — append to an existing key's value list, else insert
the key at its sorted position with a singleton list. -/
def Header.push (h : Header) (k : List Char) (v : List Char) : Header :=
  match h with
  | [] => [(k, [v])]
  | (k', vs) :: rest =>
    if k = k' then (k', vs ++ [v]) :: rest
    else if keyLtB k k' then (k, [v]) :: (k', vs) :: rest
    else (k', vs) :: Header.push rest k v

/-- Rust `Vec::join(",")`. -/
def joinComma : List (List Char) → List Char
  | [] => []
  | [v] => v
  | v :: rest => v ++ ',' :: joinComma rest

/-- `Header::write_to` (src/frame/mod.rs lines 187-196): for each field in
map order emit `encode(name) + ": " + encode(values.join(",")) + "\n"`,
accumulating the number of bytes written.  Result: (chars written, byte
count returned). -/
def Header.write_to : Header → List Char × Nat
  | [] => ([], 0)
  | (k, vs) :: rest =>
    let field := encode k ++ ':' :: ' ' :: encode (joinComma vs) ++ ['\n']
    let r := Header.write_to rest
    (field ++ r.1, utf8Len field + r.2)

/-- `Header::get` on the map (exact-key lookup, used for `content-length`). -/
def Header.get (h : Header) (k : List Char) : Option (List (List Char)) :=
  match h with
  | [] => none
  | (k', vs) :: rest => if k = k' then some vs else Header.get rest k

/-- Errors of src/frame/error.rs `ReadError` (IO / Encoding / Format), plus
`busy` for the gate's `LatchError` (src/frame/mod.rs lines 30-39), which
`read_frame` surfaces through `?`. -/
inductive ReadError where
  | io : ReadError
  | encoding : ReadError
  | format : String → ReadError
  | busy : ReadError
deriving DecidableEq

deriving instance DecidableEq for Except

/-- Rust `str::split(':')`: all the parts between colons (every colon splits;
an input with no colon yields one part). -/
def splitChar (sep : Char) : List Char → List (List Char)
  | [] => [[]]
  | c :: rest =>
    if c = sep then [] :: splitChar sep rest
    else
      match splitChar sep rest with
      | [] => [[c]]
      | p :: ps => (c :: p) :: ps

/-- The body of `Header::read_from`'s loop for one non-empty line
(src/frame/mod.rs lines 209-233): strip trailing CR then trailing LF, split
on `:`, require at least two parts, decode parts[0] and parts[1], trim and
lowercase the name, trim the value, reject an empty name, push. -/
def processLine (line : List Char) (h : Header) : Except ReadError Header :=
  match splitChar ':' (trimEndM '\n' (trimEndM '\r' line)) with
  | [] => .error (.format "invalid number of header field parts. Expected 2, got 0")
  | [_] => .error (.format "invalid number of header field parts. Expected 2, got 1")
  | p0 :: p1 :: _ =>
    if toLowerL (trimBoth (decode p0)) = [] then
      .error (.format "empty header field name")
    else
      .ok (Header.push h (toLowerL (trimBoth (decode p0)))
        (trimEndM '\r' (trimEndM '\n' (trimStartWs (decode p1)))))

/-- `BufRead::read_until(EOL)` on a char source: the first component is the
line read including the `\n` terminator when one is found (or everything up
to EOF), the second is the unread remainder. -/
def readLine : List Char → List Char × List Char
  | [] => ([], [])
  | c :: rest =>
    if c = '\n' then ([c], rest)
    else
      let r := readLine rest
      (c :: r.1, r.2)

/-- The `loop` of `Header::read_from` (src/frame/mod.rs lines 202-234): read
one line from the budget-limited region; a 0-byte read breaks with the table
accumulated so far; otherwise process the line and continue.  The fuel
argument only bounds the iteration count; each iteration with a non-empty
input consumes at least one char, so fuel = initial input length is enough
(the fuel-0 and empty-input base cases agree).  Also accumulates the number
of chars consumed. -/
def readLinesLoopF : Nat → List Char → Header → Nat → (Except ReadError Header) × Nat
  | 0, _, h, n => (.ok h, n)
  | fuel + 1, input, h, n =>
    if input.isEmpty then (.ok h, n)
    else
      match processLine (readLine input).1 h with
      | .error e => (.error e, n + (readLine input).1.length)
      | .ok h2 =>
        readLinesLoopF fuel (readLine input).2 h2 (n + (readLine input).1.length)

/-- MAX_HEADER_SIZE (src/frame/mod.rs line 26). -/
def maxHeaderSize : Nat := 1024 * 1000

/-- `Header::read_from` (src/frame/mod.rs lines 198-236) together with the
chars it consumes: the `reader.take(MAX_HEADER_SIZE)` adaptor delivers
exactly the first 1,024,000 bytes of the source and then reports EOF, so the
loop runs on that prefix. -/
def headerReadC (input : List Char) : (Except ReadError Header) × Nat :=
  readLinesLoopF (input.take maxHeaderSize).length (input.take maxHeaderSize) [] 0

/-- `Header::read_from`, result only. -/
def Header.read_from (input : List Char) : Except ReadError Header :=
  (headerReadC input).1

lemma char_eq_of_toNat_eq {a b : Char} (h : a.toNat = b.toNat) : a = b := by
  have : a.val = b.val := by
    apply UInt32.ext
    simpa [Char.toNat] using h
  exact Char.ext this

lemma keyLt_trichot : ∀ a b : List Char,
    a = b ∨ keyLtB a b = true ∨ keyLtB b a = true := by
  intro a
  induction a with
  | nil =>
    intro b
    cases b with
    | nil => left; rfl
    | cons y ys => right; left; rfl
  | cons x xs ih =>
    intro b
    cases b with
    | nil => right; right; rfl
    | cons y ys =>
      rcases Nat.lt_trichotomy x.toNat y.toNat with h | h | h
      · right; left; simp [keyLtB, h]
      · have hxy : x = y := char_eq_of_toNat_eq h
        subst hxy
        rcases ih ys with h2 | h2 | h2
        · left; rw [h2]
        · right; left; simp [keyLtB, h2]
        · right; right; simp [keyLtB, h2]
      · right; right; simp [keyLtB, h, Nat.lt_asymm h]

lemma keyLt_asymm : ∀ a b : List Char,
    keyLtB a b = true → keyLtB b a = false := by
  intro a
  induction a with
  | nil =>
    intro b h
    cases b with
    | nil => simp [keyLtB] at h
    | cons y ys => rfl
  | cons x xs ih =>
    intro b h
    cases b with
    | nil => simp [keyLtB] at h
    | cons y ys =>
      rcases Nat.lt_trichotomy x.toNat y.toNat with h1 | h1 | h1
      · simp [keyLtB, h1, Nat.lt_asymm h1]
      · have hxy : x = y := char_eq_of_toNat_eq h1
        subst hxy
        simp only [keyLtB, lt_irrefl, if_false] at h ⊢
        exact ih ys h
      · simp [keyLtB, h1, Nat.lt_asymm h1] at h

lemma keyLt_ne : ∀ a b : List Char, keyLtB a b = true → a ≠ b := by
  intro a b h heq
  subst heq
  have : keyLtB a a = false := keyLt_asymm a a h
  rw [this] at h
  exact Bool.false_ne_true h

lemma keyLt_trans : ∀ a b c : List Char,
    keyLtB a b = true → keyLtB b c = true → keyLtB a c = true := by
  intro a
  induction a with
  | nil =>
    intro b c hab hbc
    cases b with
    | nil => simp [keyLtB] at hab
    | cons y ys =>
      cases c with
      | nil => simp [keyLtB] at hbc
      | cons z zs => rfl
  | cons x xs ih =>
    intro b c hab hbc
    cases b with
    | nil => simp [keyLtB] at hab
    | cons y ys =>
      cases c with
      | nil => simp [keyLtB] at hbc
      | cons z zs =>
        rcases Nat.lt_trichotomy x.toNat y.toNat with h1 | h1 | h1
        · rcases Nat.lt_trichotomy y.toNat z.toNat with h2 | h2 | h2
          · simp [keyLtB, Nat.lt_trans h1 h2]
          · have : y = z := char_eq_of_toNat_eq h2
            subst this
            simp [keyLtB, h1]
          · simp [keyLtB, h2, Nat.lt_asymm h2] at hbc
        · have : x = y := char_eq_of_toNat_eq h1
          subst this
          simp only [keyLtB, lt_irrefl, if_false] at hab
          rcases Nat.lt_trichotomy x.toNat z.toNat with h2 | h2 | h2
          · simp [keyLtB, h2]
          · have : x = z := char_eq_of_toNat_eq h2
            subst this
            simp only [keyLtB, lt_irrefl, if_false] at hbc ⊢
            exact ih ys zs hab hbc
          · simp [keyLtB, h2, Nat.lt_asymm h2] at hbc
        · simp [keyLtB, h1, Nat.lt_asymm h1] at hab

/-- Keys present after a push: either the pushed key or one already there. -/
lemma push_mem_key : ∀ (h : Header) (k : List Char) (v : List Char)
    (x : List Char × List (List Char)), x ∈ Header.push h k v →
    x.1 = k ∨ ∃ y ∈ h, y.1 = x.1 := by
  intro h
  induction h with
  | nil =>
    intro k v x hx
    simp [Header.push] at hx
    left; simp [hx]
  | cons hd tl ih =>
    intro k v x hx
    obtain ⟨k', vs⟩ := hd
    by_cases h1 : k = k'
    · subst h1
      simp [Header.push] at hx
      rcases hx with hx | hx
      · right; exact ⟨(k, vs), by simp, by simp [hx]⟩
      · right; exact ⟨x, by simp [hx], rfl⟩
    · by_cases h2 : keyLtB k k' = true
      · simp [Header.push, h1, h2] at hx
        rcases hx with hx | hx | hx
        · left; simp [hx]
        · right; exact ⟨(k', vs), by simp, by simp [hx]⟩
        · right; exact ⟨x, by simp [hx], rfl⟩
      · simp [Header.push, h1, h2] at hx
        rcases hx with hx | hx
        · right; exact ⟨(k', vs), by simp, by simp [hx]⟩
        · rcases ih k v x hx with h3 | ⟨y, hy, hyx⟩
          · left; exact h3
          · right; exact ⟨y, by simp [hy], hyx⟩

/-- Pushing preserves the strict ascending-key order of the map. -/
lemma pairwise_push : ∀ (h : Header) (k : List Char) (v : List Char),
    h.Pairwise (fun x y => keyLtB x.1 y.1 = true) →
    (Header.push h k v).Pairwise (fun x y => keyLtB x.1 y.1 = true) := by
  intro h
  induction h with
  | nil =>
    intro k v _
    simp [Header.push]
  | cons hd tl ih =>
    intro k v hp
    obtain ⟨k', vs⟩ := hd
    rw [List.pairwise_cons] at hp
    obtain ⟨hall, htl⟩ := hp
    by_cases h1 : k = k'
    · subst h1
      have hred : Header.push ((k, vs) :: tl) k v = (k, vs ++ [v]) :: tl := by
        simp [Header.push]
      rw [hred, List.pairwise_cons]
      exact ⟨hall, htl⟩
    · by_cases h2 : keyLtB k k' = true
      · simp only [Header.push, if_neg h1, if_pos h2]
        rw [List.pairwise_cons]
        constructor
        · intro y hy
          rcases List.mem_cons.mp hy with hy | hy
          · rw [hy]; exact h2
          · exact keyLt_trans k k' y.1 h2 (hall y hy)
        · rw [List.pairwise_cons]
          exact ⟨hall, htl⟩
      · have h3 : keyLtB k' k = true := by
          rcases keyLt_trichot k k' with h3 | h3 | h3
          · exact absurd h3 h1
          · exact absurd h3 h2
          · exact h3
        simp only [Header.push, if_neg h1, if_neg h2]
        rw [List.pairwise_cons]
        constructor
        · intro y hy
          rcases push_mem_key tl k v y hy with h4 | ⟨z, hz, hzy⟩
          · rw [h4]; exact h3
          · rw [← hzy]; exact hall z hz
        · exact ih k v htl

/-- One serialized header line as `Header::write_to` emits it. -/
def headerLine (kv : List Char × List (List Char)) : List Char :=
  encode kv.1 ++ ':' :: ' ' :: encode (joinComma kv.2) ++ ['\n']

lemma utf8Len_append (a b : List Char) :
    utf8Len (a ++ b) = utf8Len a + utf8Len b := by
  simp [utf8Len]

lemma write_to_flatten : ∀ h : Header,
    (Header.write_to h).1 = (h.map headerLine).flatten := by
  intro h
  induction h with
  | nil => simp [Header.write_to]
  | cons hd tl ih =>
    obtain ⟨k, vs⟩ := hd
    simp [Header.write_to, headerLine, ih]

lemma write_to_count : ∀ h : Header,
    (Header.write_to h).2 = utf8Len (Header.write_to h).1 := by
  intro h
  induction h with
  | nil => simp [Header.write_to, utf8Len]
  | cons hd tl ih =>
    obtain ⟨k, vs⟩ := hd
    simp only [Header.write_to, utf8Len_append, ih]

/-- C9: for every header table (any table reachable by a sequence of pushes
from the empty table), `Header::write_to` emits the fields in strictly
ascending field-name order, one line per field of exactly the shape
`encode(name) ++ ": " ++ encode(values joined by a single comma) ++ LF`, and
the returned byte count is the total UTF-8 size of what was written. -/
theorem c9_header_write_sorted (ops : List (List Char × List Char)) :
    ((ops.foldl (fun h kv => Header.push h kv.1 kv.2) []).Pairwise
        (fun x y => keyLtB x.1 y.1 = true)) ∧
    (Header.write_to (ops.foldl (fun h kv => Header.push h kv.1 kv.2) [])).1 =
      (((ops.foldl (fun h kv => Header.push h kv.1 kv.2) []).map
          headerLine).flatten) ∧
    (Header.write_to (ops.foldl (fun h kv => Header.push h kv.1 kv.2) [])).2 =
      utf8Len (Header.write_to
        (ops.foldl (fun h kv => Header.push h kv.1 kv.2) [])).1 := by
  refine ⟨?_, write_to_flatten _, write_to_count _⟩
  have main : ∀ (l : List (List Char × List Char)) (h : Header),
      h.Pairwise (fun x y => keyLtB x.1 y.1 = true) →
      (l.foldl (fun h kv => Header.push h kv.1 kv.2) h).Pairwise
        (fun x y => keyLtB x.1 y.1 = true) := by
    intro l
    induction l with
    | nil => intro h hp; simpa using hp
    | cons hd tl ih =>
      intro h hp
      exact ih _ (pairwise_push h hd.1 hd.2 hp)
  exact main ops [] (by simp)

/- ### Line-level parsing lemmas -/

lemma dropWhile_eq_self_of {α : Type} (p : α → Bool) :
    ∀ l : List α, (∀ x ∈ l, p x = false) → List.dropWhile p l = l := by
  intro l hl
  cases l with
  | nil => rfl
  | cons c rest =>
    rw [List.dropWhile_cons, hl c (by simp)]
    simp

lemma trimEndM_of_not_mem (c : Char) (l : List Char) (h : c ∉ l) :
    trimEndM c l = l := by
  unfold trimEndM
  rw [dropWhile_eq_self_of _ _ ?_, List.reverse_reverse]
  intro x hx
  simp only [beq_eq_false_iff_ne, ne_eq]
  intro hxc
  exact h (by simpa [hxc] using List.mem_reverse.mp hx)

lemma trimEndM_last_ne (c : Char) (X : List Char) (d : Char) (h : d ≠ c) :
    trimEndM c (X ++ [d]) = X ++ [d] := by
  unfold trimEndM
  rw [List.reverse_append]
  simp only [List.reverse_singleton, List.singleton_append, List.dropWhile_cons]
  rw [show (d == c) = false by simpa using h]
  simp

lemma trimEndM_append_self (c : Char) (X : List Char) :
    trimEndM c (X ++ [c]) = trimEndM c X := by
  unfold trimEndM
  rw [List.reverse_append]
  simp [List.dropWhile_cons]

lemma clean_line_append (X : List Char) (h : '\n' ∉ X) :
    trimEndM '\n' (trimEndM '\r' (X ++ ['\n'])) = X := by
  rw [trimEndM_last_ne '\r' X '\n' (by decide)]
  unfold trimEndM
  rw [List.reverse_append]
  simp only [List.reverse_singleton, List.singleton_append, List.dropWhile_cons]
  rw [if_pos (by simp)]
  rw [dropWhile_eq_self_of _ _ ?_, List.reverse_reverse]
  intro x hx
  simp only [beq_eq_false_iff_ne, ne_eq]
  intro hxc
  exact h (by simpa [hxc] using List.mem_reverse.mp hx)

lemma splitChar_not_mem (sep : Char) : ∀ l : List Char, sep ∉ l →
    splitChar sep l = [l] := by
  intro l
  induction l with
  | nil => intro _; rfl
  | cons c rest ih =>
    intro h
    have hc : ¬c = sep := fun hc => h (by simp [hc])
    have hr : sep ∉ rest := fun hr => h (by simp [hr])
    simp [splitChar, hc, ih hr]

lemma splitChar_append_cons (sep : Char) : ∀ (a b : List Char), sep ∉ a →
    splitChar sep (a ++ sep :: b) = a :: splitChar sep b := by
  intro a
  induction a with
  | nil => intro b _; simp [splitChar]
  | cons c rest ih =>
    intro b h
    have hc : ¬c = sep := fun hc => h (by simp [hc])
    have hr : sep ∉ rest := fun hr => h (by simp [hr])
    simp only [List.cons_append, splitChar, if_neg hc, List.append_eq, ih b hr]

/-- C3 (amended): a header line is split on every colon and only parts[0] and
parts[1] are used.  The field name is the text before the first `:`; the
field value is the text between the first and second `:` (anything after a
second colon is dropped, not kept whole); a line with no `:` fails with the
FORMAT error.  Lines with exactly one colon keep the whole remainder. -/
theorem c3_split_second_colon :
    (∀ (a b c : List Char) (acc : Header), ':' ∉ a → ':' ∉ b →
      '\n' ∉ a → '\n' ∉ b → '\n' ∉ c →
      processLine (a ++ ':' :: b ++ ':' :: c ++ ['\n']) acc =
        (if toLowerL (trimBoth (decode a)) = [] then
          .error (.format "empty header field name")
         else .ok (Header.push acc (toLowerL (trimBoth (decode a)))
           (trimEndM '\r' (trimEndM '\n' (trimStartWs (decode b))))))) ∧
    (∀ (a b : List Char) (acc : Header), ':' ∉ a → ':' ∉ b →
      '\n' ∉ a → '\n' ∉ b →
      processLine (a ++ ':' :: b ++ ['\n']) acc =
        (if toLowerL (trimBoth (decode a)) = [] then
          .error (.format "empty header field name")
         else .ok (Header.push acc (toLowerL (trimBoth (decode a)))
           (trimEndM '\r' (trimEndM '\n' (trimStartWs (decode b))))))) ∧
    (∀ (l : List Char) (acc : Header), ':' ∉ l → '\n' ∉ l →
      processLine (l ++ ['\n']) acc =
        .error (.format "invalid number of header field parts. Expected 2, got 1")) := by
  refine ⟨?_, ?_, ?_⟩
  · intro a b c acc hca hcb hna hnb hnc
    have hre : a ++ ':' :: b ++ ':' :: c ++ ['\n'] =
        (a ++ ':' :: b ++ ':' :: c) ++ ['\n'] := by
      simp [List.append_assoc]
    have hX : '\n' ∉ a ++ ':' :: b ++ ':' :: c := by
      simp only [List.mem_append, List.mem_cons, not_or]
      exact ⟨⟨hna, by decide, hnb⟩, by decide, hnc⟩
    unfold processLine
    rw [hre, clean_line_append _ hX]
    have hsp : splitChar ':' (a ++ ':' :: b ++ ':' :: c) =
        a :: b :: splitChar ':' c := by
      have h1 : a ++ ':' :: b ++ ':' :: c = a ++ ':' :: (b ++ ':' :: c) := by
        simp [List.append_assoc]
      rw [h1, splitChar_append_cons ':' a _ hca, splitChar_append_cons ':' b _ hcb]
    rw [hsp]
  · intro a b acc hca hcb hna hnb
    have hre : a ++ ':' :: b ++ ['\n'] = (a ++ ':' :: b) ++ ['\n'] := by
      simp [List.append_assoc]
    have hX : '\n' ∉ a ++ ':' :: b := by
      simp only [List.mem_append, List.mem_cons, not_or]
      exact ⟨hna, by decide, hnb⟩
    unfold processLine
    rw [hre, clean_line_append _ hX]
    rw [splitChar_append_cons ':' a b hca, splitChar_not_mem ':' b hcb]
  · intro l acc hcl hnl
    unfold processLine
    rw [clean_line_append _ hnl, splitChar_not_mem ':' l hcl]

/-- Witness for C3 at lines "a:b:c\n" (two colons), "a: b\n" (one colon) and
"nocolon\n". -/
theorem c3_split_second_colon_witness :
    processLine (cs "a" ++ ':' :: cs "b" ++ ':' :: cs "c" ++ ['\n']) [] =
      .ok [(cs "a", [cs "b"])] ∧
    processLine (cs "a" ++ ':' :: cs " b" ++ ['\n']) [] =
      .ok [(cs "a", [cs "b"])] ∧
    processLine (cs "nocolon" ++ ['\n']) [] =
      .error (.format "invalid number of header field parts. Expected 2, got 1") := by
  refine ⟨?_, ?_, ?_⟩
  · rw [c3_split_second_colon.1 (cs "a") (cs "b") (cs "c") []
      (by decide) (by decide) (by decide) (by decide) (by decide)]
    decide
  · rw [c3_split_second_colon.2.1 (cs "a") (cs " b") []
      (by decide) (by decide) (by decide) (by decide)]
    decide
  · exact c3_split_second_colon.2.2 (cs "nocolon") [] (by decide) (by decide)

/-- Counterexample for C3 as stated: on the line `a:b:c`, the parsed field
value is `b` (the text between the first and second colon), not the entire
remainder `b:c` after the first colon. -/
theorem c3_split_counterexample :
    processLine (cs "a:b:c\n") [] = .ok [(cs "a", [cs "b"])] ∧
      processLine (cs "a:b:c\n") [] ≠ .ok [(cs "a", [cs "b:c"])] := by
  constructor
  · decide
  · decide

/- ### Command and frame writer, src/frame/mod.rs -/

/-- The 15 command verbs (src/frame/mod.rs lines 87-104). -/
inductive Command where
  | connect | stomp | connected | send | subscribe | unsubscribe
  | ack | nack | begin | commit | abort | disconnect
  | message | receipt | error
deriving DecidableEq

/-- Canonical spelling (`Display` impl, src/frame/mod.rs lines 106-130). -/
def cmdStr : Command → List Char
  | .connect => cs "CONNECT"
  | .stomp => cs "STOMP"
  | .connected => cs "CONNECTED"
  | .send => cs "SEND"
  | .subscribe => cs "SUBSCRIBE"
  | .unsubscribe => cs "UNSUBSCRIBE"
  | .ack => cs "ACK"
  | .nack => cs "NACK"
  | .begin => cs "BEGIN"
  | .commit => cs "COMMIT"
  | .abort => cs "ABORT"
  | .disconnect => cs "DISCONNECT"
  | .message => cs "MESSAGE"
  | .receipt => cs "RECEIPT"
  | .error => cs "ERROR"

/-- Exact-match parse (`FromStr` impl, src/frame/mod.rs lines 132-157). -/
def cmdFromStr (s : List Char) : Option Command :=
  if s = cs "CONNECT" then some .connect
  else if s = cs "STOMP" then some .stomp
  else if s = cs "CONNECTED" then some .connected
  else if s = cs "SEND" then some .send
  else if s = cs "SUBSCRIBE" then some .subscribe
  else if s = cs "UNSUBSCRIBE" then some .unsubscribe
  else if s = cs "ACK" then some .ack
  else if s = cs "NACK" then some .nack
  else if s = cs "BEGIN" then some .begin
  else if s = cs "COMMIT" then some .commit
  else if s = cs "ABORT" then some .abort
  else if s = cs "DISCONNECT" then some .disconnect
  else if s = cs "MESSAGE" then some .message
  else if s = cs "RECEIPT" then some .receipt
  else if s = cs "ERROR" then some .error
  else none

/-- `Frame::write_to` (src/frame/mod.rs lines 312-323): command spelling, LF,
the serialized header block, the blank-separator LF, the body source copied
to EOF (`body` holds the bytes the body reader yields), one NUL; returns the
accumulated byte count.  Result: (chars written, byte count). -/
def Frame.write_to (c : Command) (h : Header) (body : List Char) :
    List Char × Nat :=
  let hw := Header.write_to h
  (cmdStr c ++ '\n' :: hw.1 ++ '\n' :: body ++ ['\x00'],
   utf8Len (cmdStr c) + 1 + hw.2 + 1 + body.length + 1)

/-- C6: writing a frame emits exactly command spelling, LF, header block,
blank LF, body bytes, NUL — and the CONNECT frame with headers
content-type=application/json, content-length=30 and empty body serializes
to exactly `CONNECT\nContent-Length: 30\nContent-Type: application/json\n\n\0`
(60 bytes). -/
theorem c6_write_frame_bytes :
    (∀ (c : Command) (h : Header) (body : List Char),
      (Frame.write_to c h body).1 =
        cmdStr c ++ '\n' :: (Header.write_to h).1 ++ '\n' :: body ++ ['\x00']) ∧
    Frame.write_to .connect
        (Header.push (Header.push [] (cs "Content-Type") (cs "application/json"))
          (cs "Content-Length") (cs "30")) [] =
      (cs "CONNECT\nContent-Length: 30\nContent-Type: application/json\n\n\x00",
       60) := by
  exact ⟨fun c h body => rfl, by decide⟩

/-- Counterexample for C2 as stated: the header table {a ↦ [x, y]} (one name
with two values) does not round-trip; `read_from(write_to(H))` yields
{a ↦ [x,y-joined]} — the two values come back as the single value "x,y". -/
theorem c2_roundtrip_counterexample :
    Header.read_from (Header.write_to [(cs "a", [cs "x", cs "y"])]).1 =
      .ok [(cs "a", [cs "x,y"])] ∧
    ([(cs "a", [cs "x,y"])] : Header) ≠ [(cs "a", [cs "x", cs "y"])] := by
  constructor
  · decide
  · decide

/-- The header block formed from the given lines with LF line endings. -/
def lfJoin : List (List Char) → List Char
  | [] => []
  | L :: rest => L ++ '\n' :: lfJoin rest

/-- The identical header block with CR LF line endings. -/
def crlfJoin : List (List Char) → List Char
  | [] => []
  | L :: rest => L ++ '\r' :: '\n' :: crlfJoin rest

/-- Counterexample for C7 as stated: for the single header line `a:b\n`
(value ending in a backslash-n escape), the CR LF block parses to
{a ↦ "b\n"} while the LF-only block parses to {a ↦ "b"} — the stray CR
blocks the trailing-LF trim of the decoded value, so the parses differ. -/
theorem c7_crlf_counterexample :
    Header.read_from (crlfJoin [cs "a:b\\n"]) = .ok [(cs "a", [cs "b\n"])] ∧
    Header.read_from (lfJoin [cs "a:b\\n"]) = .ok [(cs "a", [cs "b"])] ∧
    Header.read_from (crlfJoin [cs "a:b\\n"]) ≠
      Header.read_from (lfJoin [cs "a:b\\n"]) := by
  refine ⟨by decide, by decide, by decide⟩

/- ### Loop lemmas for Header::read_from -/

lemma readLine_no_newline : ∀ l : List Char, '\n' ∉ l → readLine l = (l, []) := by
  intro l
  induction l with
  | nil => intro _; rfl
  | cons c rest ih =>
    intro h
    have hc : ¬c = '\n' := fun hc => h (by simp [hc])
    have hr : '\n' ∉ rest := fun hr => h (by simp [hr])
    simp [readLine, hc, ih hr]

lemma readLine_append : ∀ (X rest : List Char), '\n' ∉ X →
    readLine (X ++ '\n' :: rest) = (X ++ ['\n'], rest) := by
  intro X
  induction X with
  | nil => intro rest _; simp [readLine]
  | cons c xs ih =>
    intro rest h
    have hc : ¬c = '\n' := fun hc => h (by simp [hc])
    have hx : '\n' ∉ xs := fun hx => h (by simp [hx])
    simp [readLine, hc, ih rest hx]

lemma loop_nil : ∀ (f : Nat) (acc : Header) (n : Nat),
    readLinesLoopF f [] acc n = (.ok acc, n) := by
  intro f acc n
  cases f <;> simp [readLinesLoopF]

lemma loop_step_ok (fuel : Nat) (input : List Char) (h h2 : Header) (n : Nat)
    (hne : input ≠ []) (hp : processLine (readLine input).1 h = .ok h2) :
    readLinesLoopF (fuel + 1) input h n =
      readLinesLoopF fuel (readLine input).2 h2 (n + (readLine input).1.length) := by
  have hie : input.isEmpty = false := by
    cases input with
    | nil => exact absurd rfl hne
    | cons c rest => rfl
  simp [readLinesLoopF, hie, hp]

lemma loop_step_err (fuel : Nat) (input : List Char) (h : Header) (n : Nat)
    (e : ReadError) (hne : input ≠ [])
    (hp : processLine (readLine input).1 h = .error e) :
    readLinesLoopF (fuel + 1) input h n = (.error e, n + (readLine input).1.length) := by
  have hie : input.isEmpty = false := by
    cases input with
    | nil => exact absurd rfl hne
    | cons c rest => rfl
  simp [readLinesLoopF, hie, hp]

lemma decode_no_backslash : ∀ l : List Char, '\\' ∉ l →
    ∀ last, last ≠ '\\' → decodeGo last l = l := by
  intro l
  induction l with
  | nil => intro _ last _; rfl
  | cons c rest ih =>
    intro h last hlast
    have hc : ¬c = '\\' := fun hc => h (by simp [hc])
    have hr : '\\' ∉ rest := fun hr => h (by simp [hr])
    have harm : (if c = 'c' ∧ last = '\\' then [':']
        else if c = 'n' ∧ last = '\\' then ['\n']
        else if c = 'r' ∧ last = '\\' then ['\r']
        else if c = '\\' ∧ last = '\\' then ['\\']
        else if c = '\\' then []
        else [c]) = [c] := by
      simp [hc, hlast]
    have hst : (if last = '\\' ∧ c = '\\' then '\x00' else c) = c := by
      simp [hc]
    show (if c = 'c' ∧ last = '\\' then [':']
        else if c = 'n' ∧ last = '\\' then ['\n']
        else if c = 'r' ∧ last = '\\' then ['\r']
        else if c = '\\' ∧ last = '\\' then ['\\']
        else if c = '\\' then []
        else [c]) ++
      decodeGo (if last = '\\' ∧ c = '\\' then '\x00' else c) rest = c :: rest
    rw [harm, hst, ih hr c hc]
    rfl

/- ### C1: the 1,024,000-byte header budget silently truncates -/

/-- A header line with one colon and no CR/LF parses to one pushed field. -/
lemma processLine_no_eol (a b : List Char) (acc : Header)
    (hca : ':' ∉ a) (hcb : ':' ∉ b)
    (hn : '\n' ∉ a ++ ':' :: b) (hr : '\r' ∉ a ++ ':' :: b) :
    processLine (a ++ ':' :: b) acc =
      (if toLowerL (trimBoth (decode a)) = [] then
        .error (.format "empty header field name")
       else .ok (Header.push acc (toLowerL (trimBoth (decode a)))
         (trimEndM '\r' (trimEndM '\n' (trimStartWs (decode b)))))) := by
  unfold processLine
  rw [trimEndM_of_not_mem _ _ hr, trimEndM_of_not_mem _ _ hn,
    splitChar_append_cons ':' a b hca, splitChar_not_mem ':' b hcb]

lemma replicate_b_no (n : Nat) (c : Char) (hc : c ≠ 'b') :
    c ∉ List.replicate n 'b' := by
  intro h
  exact hc (List.mem_replicate.mp h).2

lemma c1_line_parses : processLine ('a' :: ':' :: List.replicate 1023998 'b') [] =
    .ok [(['a'], [List.replicate 1023998 'b'])] := by
  have hdecv : decode (List.replicate 1023998 'b') = List.replicate 1023998 'b' :=
    decode_no_backslash _ (replicate_b_no _ _ (by decide)) '\x00' (by decide)
  have hts : trimStartWs (List.replicate 1023998 'b') =
      List.replicate 1023998 'b' := by
    unfold trimStartWs
    apply dropWhile_eq_self_of
    intro x hx
    rw [(List.mem_replicate.mp hx).2]
    decide
  have h1 := processLine_no_eol ['a'] (List.replicate 1023998 'b') []
    (by decide) (replicate_b_no _ _ (by decide))
    (by simp only [List.mem_cons, not_or, List.singleton_append]
        exact ⟨by decide, by decide, replicate_b_no _ _ (by decide)⟩)
    (by simp only [List.mem_cons, not_or, List.singleton_append]
        exact ⟨by decide, by decide, replicate_b_no _ _ (by decide)⟩)
  rw [List.singleton_append] at h1
  rw [h1]
  rw [show decode ['a'] = ['a'] from rfl,
    show toLowerL (trimBoth ['a']) = ['a'] from rfl]
  rw [if_neg (show ¬(['a'] : List Char) = [] by decide)]
  rw [hdecv, hts, trimEndM_of_not_mem _ _ (replicate_b_no _ _ (by decide)),
    trimEndM_of_not_mem _ _ (replicate_b_no _ _ (by decide))]
  rfl

lemma c1_core (n : Nat) (hn : 1023998 ≤ n) :
    Header.read_from ('a' :: ':' :: List.replicate n 'b') =
      .ok [(['a'], [List.replicate 1023998 'b'])] := by
  have hreg : ('a' :: ':' :: List.replicate n 'b').take maxHeaderSize =
      'a' :: ':' :: List.replicate 1023998 'b' := by
    show List.take (1024 * 1000) ('a' :: ':' :: List.replicate n 'b') =
      'a' :: ':' :: List.replicate 1023998 'b'
    rw [show (1024 * 1000 : Nat) = 1023998 + 1 + 1 by norm_num]
    rw [List.take_succ_cons, List.take_succ_cons, List.take_replicate]
    rw [Nat.min_eq_left hn]
  have hlen : ('a' :: ':' :: List.replicate 1023998 'b').length = 1023999 + 1 := by
    rw [List.length_cons, List.length_cons, List.length_replicate]
  have hnb : '\n' ∉ ('a' :: ':' :: List.replicate 1023998 'b') := by
    simp only [List.mem_cons, not_or]
    exact ⟨by decide, by decide, replicate_b_no _ _ (by decide)⟩
  have hline : readLine ('a' :: ':' :: List.replicate 1023998 'b') =
      ('a' :: ':' :: List.replicate 1023998 'b', []) :=
    readLine_no_newline _ hnb
  show (headerReadC ('a' :: ':' :: List.replicate n 'b')).1 = _
  unfold headerReadC
  rw [hreg, hlen]
  rw [loop_step_ok 1023999 _ [] [(['a'], [List.replicate 1023998 'b'])] 0
    (List.cons_ne_nil _ _) (by rw [hline]; exact c1_line_parses)]
  rw [hline, loop_nil]

/-- C1 (amended): exceeding the header budget does not by itself fail with
FORMAT — `Header::read_from` reads at most 1,024,000 bytes and parses that
truncated prefix; when the prefix parses (e.g. a single over-long line that
still contains a colon) it returns Ok with the truncated table.  For every
n ≥ 1023998, the over-budget source `"a:" ++ n × 'b'` parses successfully to
{a ↦ 1023998 × 'b'}, the value cut at the budget. -/
theorem c1_header_budget_truncation (n : Nat) (hn : 1023998 ≤ n) :
    Header.read_from ('a' :: ':' :: List.replicate n 'b') =
      .ok [(['a'], [List.replicate 1023998 'b'])] :=
  c1_core n hn

/-- Witness for C1 (amended) at n = 1023998. -/
theorem c1_header_budget_truncation_witness :
    1023998 ≤ 1023998 ∧
      Header.read_from ('a' :: ':' :: List.replicate 1023998 'b') =
        .ok [(['a'], [List.replicate 1023998 'b'])] :=
  ⟨by decide, c1_header_budget_truncation 1023998 (by decide)⟩

/-- Counterexample for C1 as stated: the byte source `"a:" ++ 1024010 × 'b'`
has 1,024,012 bytes of header data and no terminating blank line, so its
header block exceeds the 1,024,000-byte budget, yet `Header::read_from`
returns a successfully parsed table instead of failing with a FORMAT
error. -/
theorem c1_header_budget_counterexample :
    1024000 < ('a' :: ':' :: List.replicate 1024010 'b').length ∧
      Header.read_from ('a' :: ':' :: List.replicate 1024010 'b') =
        .ok [(['a'], [List.replicate 1023998 'b'])] := by
  constructor
  · rw [List.length_cons, List.length_cons, List.length_replicate]
    norm_num
  · exact c1_core 1024010 (by decide)

/- ### C7: CRLF versus LF line endings -/

lemma processLine_eq_of_split (line p0 p1 : List Char)
    (rest : List (List Char)) (acc : Header)
    (h : splitChar ':' (trimEndM '\n' (trimEndM '\r' line)) = p0 :: p1 :: rest) :
    processLine line acc =
      (if toLowerL (trimBoth (decode p0)) = [] then
        .error (.format "empty header field name")
       else .ok (Header.push acc (toLowerL (trimBoth (decode p0)))
         (trimEndM '\r' (trimEndM '\n' (trimStartWs (decode p1)))))) := by
  unfold processLine
  rw [h]

lemma processLine_eq_of_split_one (line p : List Char) (acc : Header)
    (h : splitChar ':' (trimEndM '\n' (trimEndM '\r' line)) = [p]) :
    processLine line acc =
      .error (.format "invalid number of header field parts. Expected 2, got 1") := by
  unfold processLine
  rw [h]

lemma mem_split_first {c : Char} : ∀ l : List Char, c ∈ l →
    ∃ a b, l = a ++ c :: b ∧ c ∉ a := by
  intro l
  induction l with
  | nil => intro h; cases h
  | cons x xs ih =>
    intro h
    by_cases hx : x = c
    · exact ⟨[], xs, by rw [hx]; rfl, by simp⟩
    · have hc : c ∈ xs := by
        rcases List.mem_cons.mp h with h1 | h1
        · exact absurd h1.symm hx
        · exact h1
      obtain ⟨a, b, hab, hca⟩ := ih hc
      exact ⟨x :: a, b, by rw [hab]; rfl,
        by simp only [List.mem_cons, not_or]; exact ⟨fun hh => hx hh.symm, hca⟩⟩

lemma trimStartWs_append_empty (B X : List Char) (h : trimStartWs B = []) :
    trimStartWs (B ++ X) = trimStartWs X := by
  unfold trimStartWs at *
  rw [List.dropWhile_append, h]
  rfl

lemma trimStartWs_append_nonempty (B X : List Char) (h : trimStartWs B ≠ []) :
    trimStartWs (B ++ X) = trimStartWs B ++ X := by
  unfold trimStartWs at *
  rw [List.dropWhile_append]
  rw [if_neg (by simpa [List.isEmpty_iff] using h)]

lemma mem_trimStartWs {x : Char} {B : List Char} (h : x ∈ trimStartWs B) :
    x ∈ B :=
  (List.dropWhile_sublist rustIsWhitespace).mem h

/-- The cleaned value is unchanged by a stray CR appended to the raw value
half, provided the raw half contains no LF. -/
lemma clean_value_cr (B : List Char) (hnB : '\n' ∉ B) :
    trimEndM '\r' (trimEndM '\n' (trimStartWs (B ++ ['\r']))) =
      trimEndM '\r' (trimEndM '\n' (trimStartWs B)) := by
  by_cases hT : trimStartWs B = []
  · rw [trimStartWs_append_empty B ['\r'] hT, hT]
    rfl
  · rw [trimStartWs_append_nonempty B ['\r'] hT]
    have hnT : '\n' ∉ trimStartWs B := fun h => hnB (mem_trimStartWs h)
    rw [trimEndM_last_ne '\n' (trimStartWs B) '\r' (by decide),
      trimEndM_of_not_mem '\n' (trimStartWs B) hnT,
      trimEndM_append_self '\r' (trimStartWs B)]

/-- Parsing one header line is unchanged by switching its terminator from LF
to CR LF, provided the line contains no LF and no backslash escape. -/
lemma processLine_crlf (L : List Char) (acc : Header)
    (hnl : '\n' ∉ L) (hbl : '\\' ∉ L) :
    processLine (L ++ ['\r', '\n']) acc = processLine (L ++ ['\n']) acc := by
  have hre : L ++ ['\r', '\n'] = (L ++ ['\r']) ++ ['\n'] := by
    simp [List.append_assoc]
  have hclean1 : trimEndM '\n' (trimEndM '\r' ((L ++ ['\r']) ++ ['\n'])) =
      L ++ ['\r'] := by
    apply clean_line_append
    simp only [List.mem_append, List.mem_cons, not_or]
    exact ⟨hnl, by decide⟩
  have hclean2 : trimEndM '\n' (trimEndM '\r' (L ++ ['\n'])) = L :=
    clean_line_append L hnl
  by_cases hc : ':' ∈ L
  · obtain ⟨A, B, hAB, hcA⟩ := mem_split_first L hc
    subst hAB
    have hre2 : (A ++ ':' :: B) ++ ['\r'] = A ++ ':' :: (B ++ ['\r']) := by
      simp [List.append_assoc]
    have hnB : '\n' ∉ B := fun h => hnl (by simp [h])
    have hbB : '\\' ∉ B := fun h => hbl (by simp [h])
    by_cases hcB : ':' ∈ B
    · obtain ⟨C, D, hCD, hcC⟩ := mem_split_first B hcB
      subst hCD
      have hsp1 : splitChar ':' (A ++ ':' :: ((C ++ ':' :: D) ++ ['\r'])) =
          A :: C :: splitChar ':' (D ++ ['\r']) := by
        rw [show (C ++ ':' :: D) ++ ['\r'] =
            C ++ ':' :: (D ++ ['\r']) by simp [List.append_assoc]]
        rw [splitChar_append_cons ':' A _ hcA, splitChar_append_cons ':' C _ hcC]
      have hsp2 : splitChar ':' (A ++ ':' :: (C ++ ':' :: D)) =
          A :: C :: splitChar ':' D := by
        rw [splitChar_append_cons ':' A _ hcA, splitChar_append_cons ':' C _ hcC]
      rw [hre, processLine_eq_of_split _ A C _ acc (by rw [hclean1, hre2]; exact hsp1),
        processLine_eq_of_split _ A C _ acc (by rw [hclean2]; exact hsp2)]
    · have hsp1 : splitChar ':' ((A ++ ':' :: B) ++ ['\r']) =
          A :: [B ++ ['\r']] := by
        rw [hre2, splitChar_append_cons ':' A _ hcA,
          splitChar_not_mem ':' (B ++ ['\r'])
            (by simp only [List.mem_append, List.mem_cons, not_or]
                exact ⟨hcB, by decide, by simp⟩)]
      have hsp2 : splitChar ':' (A ++ ':' :: B) = A :: [B] := by
        rw [splitChar_append_cons ':' A _ hcA, splitChar_not_mem ':' B hcB]
      rw [hre, processLine_eq_of_split _ A (B ++ ['\r']) _ acc
          (by rw [hclean1]; exact hsp1),
        processLine_eq_of_split _ A B _ acc (by rw [hclean2]; exact hsp2)]
      have hdec1 : decode (B ++ ['\r']) = B ++ ['\r'] := by
        apply decode_no_backslash _ ?_ '\x00' (by decide)
        simp only [List.mem_append, List.mem_cons, not_or]
        exact ⟨hbB, by decide, by simp⟩
      have hdec2 : decode B = B := decode_no_backslash B hbB '\x00' (by decide)
      rw [hdec1, hdec2, clean_value_cr B hnB]
  · have hsp1 : splitChar ':' ((L ++ ['\r'])) = [L ++ ['\r']] := by
      apply splitChar_not_mem
      simp only [List.mem_append, List.mem_cons, not_or]
      exact ⟨hc, by decide, by simp⟩
    have hsp2 : splitChar ':' L = [L] := splitChar_not_mem ':' L hc
    rw [hre, processLine_eq_of_split_one _ (L ++ ['\r']) acc
        (by rw [hclean1]; exact hsp1),
      processLine_eq_of_split_one _ L acc (by rw [hclean2]; exact hsp2)]

lemma utf8CharLen_pos (c : Char) : 1 ≤ utf8CharLen c := by
  unfold utf8CharLen
  split_ifs <;> norm_num

lemma len_le_utf8Len : ∀ l : List Char, l.length ≤ utf8Len l := by
  intro l
  induction l with
  | nil => simp [utf8Len]
  | cons c rest ih =>
    show rest.length + 1 ≤ utf8Len (c :: rest)
    have : utf8Len (c :: rest) = utf8CharLen c + utf8Len rest := by
      simp [utf8Len]
    rw [this]
    have := utf8CharLen_pos c
    omega

lemma lf_le_crlf : ∀ lines : List (List Char),
    (lfJoin lines).length ≤ (crlfJoin lines).length := by
  intro lines
  induction lines with
  | nil => simp [lfJoin, crlfJoin]
  | cons L rest ih =>
    simp only [lfJoin, crlfJoin, List.length_append, List.length_cons]
    omega

/-- Running the header loop over the CR LF block and over the LF block gives
the same parse result, for backslash-free LF-free lines and enough fuel. -/
lemma crlf_lf_loop : ∀ (lines : List (List Char)) (acc : Header)
    (f1 f2 n1 n2 : Nat),
    (∀ L ∈ lines, '\n' ∉ L ∧ '\\' ∉ L) →
    (crlfJoin lines).length ≤ f1 → (lfJoin lines).length ≤ f2 →
    (readLinesLoopF f1 (crlfJoin lines) acc n1).1 =
      (readLinesLoopF f2 (lfJoin lines) acc n2).1 := by
  intro lines
  induction lines with
  | nil =>
    intro acc f1 f2 n1 n2 _ _ _
    show (readLinesLoopF f1 [] acc n1).1 = (readLinesLoopF f2 [] acc n2).1
    rw [loop_nil, loop_nil]
  | cons L rest ih =>
    intro acc f1 f2 n1 n2 hl hf1 hf2
    have hL := hl L (by simp)
    have hlen1 : (crlfJoin (L :: rest)).length =
        L.length + 2 + (crlfJoin rest).length := by
      simp only [crlfJoin, List.length_append, List.length_cons]
      omega
    have hlen2 : (lfJoin (L :: rest)).length =
        L.length + 1 + (lfJoin rest).length := by
      simp only [lfJoin, List.length_append, List.length_cons]
      omega
    obtain ⟨f1', rfl⟩ : ∃ f1', f1 = f1' + 1 := by
      cases f1 with
      | zero => rw [hlen1] at hf1; omega
      | succ k => exact ⟨k, rfl⟩
    obtain ⟨f2', rfl⟩ : ∃ f2', f2 = f2' + 1 := by
      cases f2 with
      | zero => rw [hlen2] at hf2; omega
      | succ k => exact ⟨k, rfl⟩
    have hnlr : '\n' ∉ L ++ ['\r'] := by
      simp only [List.mem_append, List.mem_cons, not_or]
      exact ⟨hL.1, by decide, by simp⟩
    have hrl1 : readLine (crlfJoin (L :: rest)) =
        ((L ++ ['\r']) ++ ['\n'], crlfJoin rest) := by
      show readLine (L ++ '\r' :: '\n' :: crlfJoin rest) = _
      rw [show L ++ '\r' :: '\n' :: crlfJoin rest =
          (L ++ ['\r']) ++ '\n' :: crlfJoin rest by simp [List.append_assoc]]
      exact readLine_append (L ++ ['\r']) (crlfJoin rest) hnlr
    have hrl2 : readLine (lfJoin (L :: rest)) = (L ++ ['\n'], lfJoin rest) := by
      show readLine (L ++ '\n' :: lfJoin rest) = _
      exact readLine_append L (lfJoin rest) hL.1
    have hne1 : crlfJoin (L :: rest) ≠ [] := by
      show L ++ '\r' :: '\n' :: crlfJoin rest ≠ []
      simp
    have hne2 : lfJoin (L :: rest) ≠ [] := by
      show L ++ '\n' :: lfJoin rest ≠ []
      simp
    have hpeq : processLine ((L ++ ['\r']) ++ ['\n']) acc =
        processLine (L ++ ['\n']) acc := by
      rw [show (L ++ ['\r']) ++ ['\n'] = L ++ ['\r', '\n'] by
        simp [List.append_assoc]]
      exact processLine_crlf L acc hL.1 hL.2
    cases hp : processLine (L ++ ['\n']) acc with
    | error e =>
      rw [loop_step_err f1' _ acc n1 e hne1 (by rw [hrl1]; rw [hpeq]; exact hp),
        loop_step_err f2' _ acc n2 e hne2 (by rw [hrl2]; exact hp)]
    | ok h2 =>
      rw [loop_step_ok f1' _ acc h2 n1 hne1 (by rw [hrl1]; rw [hpeq]; exact hp),
        loop_step_ok f2' _ acc h2 n2 hne2 (by rw [hrl2]; exact hp)]
      rw [hrl1, hrl2]
      apply ih _ f1' f2' _ _ (fun L' hL' => hl L' (by simp [hL']))
      · rw [hlen1] at hf1; omega
      · rw [hlen2] at hf2; omega

/-- C7 (amended): for every header block whose lines contain no backslash
escapes (and no LF), and whose CR LF form fits in the 1,024,000-byte budget,
parsing with CR LF line endings produces exactly the same header table as
parsing the identical block with LF-only endings.  (With escapes the two can
differ: a value half ending in an escape that decodes to LF or CR interacts
with the stray CR — see the counterexample.) -/
theorem c7_crlf_lf_agree (lines : List (List Char))
    (hl : ∀ L ∈ lines, '\n' ∉ L ∧ '\\' ∉ L)
    (hsize : utf8Len (crlfJoin lines) ≤ 1024000) :
    Header.read_from (crlfJoin lines) = Header.read_from (lfJoin lines) := by
  have hlen1 : (crlfJoin lines).length ≤ maxHeaderSize := by
    have := len_le_utf8Len (crlfJoin lines)
    show _ ≤ 1024 * 1000
    omega
  have hlen2 : (lfJoin lines).length ≤ maxHeaderSize := le_trans (lf_le_crlf lines) hlen1
  show (headerReadC (crlfJoin lines)).1 = (headerReadC (lfJoin lines)).1
  unfold headerReadC
  rw [List.take_of_length_le hlen1, List.take_of_length_le hlen2]
  exact crlf_lf_loop lines [] _ _ 0 0 hl (le_refl _) (le_refl _)

/-- Witness for C7 (amended) at the block with lines "a:b" and "c: d". -/
theorem c7_crlf_lf_agree_witness :
    (∀ L ∈ [cs "a:b", cs "c: d"], '\n' ∉ L ∧ '\\' ∉ L) ∧
      utf8Len (crlfJoin [cs "a:b", cs "c: d"]) ≤ 1024000 ∧
      Header.read_from (crlfJoin [cs "a:b", cs "c: d"]) =
        Header.read_from (lfJoin [cs "a:b", cs "c: d"]) :=
  ⟨by decide, by decide,
    c7_crlf_lf_agree [cs "a:b", cs "c: d"] (by decide) (by decide)⟩

/- ### C2: write/read round trip -/

lemma mem_encode : ∀ (s : List Char) (x : Char), x ∈ encode s →
    (x ∈ s ∧ x ≠ '\\' ∧ x ≠ '\r' ∧ x ≠ '\n' ∧ x ≠ ':') ∨
      x = '\\' ∨ x = 'r' ∨ x = 'n' ∨ x = 'c' := by
  intro s
  induction s with
  | nil => intro x h; cases h
  | cons c rest ih =>
    intro x h
    show (x ∈ c :: rest ∧ _ ∧ _ ∧ _ ∧ _) ∨ _
    have h2 : x ∈ (if c = '\\' then ['\\', '\\']
        else if c = '\r' then ['\\', 'r']
        else if c = '\n' then ['\\', 'n']
        else if c = ':' then ['\\', 'c']
        else [c]) ∨ x ∈ encode rest := List.mem_append.mp h
    rcases h2 with h2 | h2
    · by_cases hc1 : c = '\\'
      · rw [if_pos hc1] at h2
        simp only [List.mem_cons, List.not_mem_nil, or_false] at h2
        rcases h2 with h2 | h2 <;> exact Or.inr (Or.inl h2)
      · by_cases hc2 : c = '\r'
        · rw [if_neg hc1, if_pos hc2] at h2
          simp only [List.mem_cons, List.not_mem_nil, or_false] at h2
          rcases h2 with h2 | h2
          · exact Or.inr (Or.inl h2)
          · exact Or.inr (Or.inr (Or.inl h2))
        · by_cases hc3 : c = '\n'
          · rw [if_neg hc1, if_neg hc2, if_pos hc3] at h2
            simp only [List.mem_cons, List.not_mem_nil, or_false] at h2
            rcases h2 with h2 | h2
            · exact Or.inr (Or.inl h2)
            · exact Or.inr (Or.inr (Or.inr (Or.inl h2)))
          · by_cases hc4 : c = ':'
            · rw [if_neg hc1, if_neg hc2, if_neg hc3, if_pos hc4] at h2
              simp only [List.mem_cons, List.not_mem_nil, or_false] at h2
              rcases h2 with h2 | h2
              · exact Or.inr (Or.inl h2)
              · exact Or.inr (Or.inr (Or.inr (Or.inr h2)))
            · rw [if_neg hc1, if_neg hc2, if_neg hc3, if_neg hc4] at h2
              simp only [List.mem_cons, List.not_mem_nil, or_false] at h2
              subst h2
              exact Or.inl ⟨by simp, hc1, hc2, hc3, hc4⟩
    · rcases ih x h2 with ⟨hm, hs⟩ | hs
      · exact Or.inl ⟨by simp [hm], hs⟩
      · exact Or.inr hs

lemma colon_not_mem_encode (s : List Char) : ':' ∉ encode s := by
  intro h
  rcases mem_encode s ':' h with ⟨_, _, _, _, h5⟩ | h5 | h5 | h5 | h5
  · exact h5 rfl
  all_goals exact absurd h5 (by decide)

lemma newline_not_mem_encode (s : List Char) : '\n' ∉ encode s := by
  intro h
  rcases mem_encode s '\n' h with ⟨_, _, _, h4, _⟩ | h5 | h5 | h5 | h5
  · exact h4 rfl
  all_goals exact absurd h5 (by decide)

lemma decode_space_encode (v : List Char) :
    decode (' ' :: encode v) = ' ' :: v := by
  show decodeGo '\x00' (' ' :: encode v) = ' ' :: v
  have h1 : decodeGo '\x00' (' ' :: encode v) =
      [' '] ++ decodeGo ' ' (encode v) := by
    simp [decodeGo]
  rw [h1, decodeGo_encode v ' ' (by decide)]
  rfl

/-- Pushing a key greater than every key in the table appends it at the
end. -/
lemma push_append : ∀ (acc : Header) (k v : List Char),
    (∀ x ∈ acc, keyLtB x.1 k = true) →
    Header.push acc k v = acc ++ [(k, [v])] := by
  intro acc
  induction acc with
  | nil => intro k v _; rfl
  | cons hd tl ih =>
    intro k v hlt
    obtain ⟨k', vs'⟩ := hd
    have hk' : keyLtB k' k = true := hlt (k', vs') (by simp)
    have hne : ¬k = k' := fun h => keyLt_ne k' k hk' h.symm
    have hnlt : ¬keyLtB k k' = true := by
      rw [keyLt_asymm k' k hk']
      simp
    show Header.push ((k', vs') :: tl) k v = _
    rw [show Header.push ((k', vs') :: tl) k v =
        (k', vs') :: Header.push tl k v by
      simp [Header.push, hne, hnlt]]
    rw [ih k v (fun x hx => hlt x (by simp [hx]))]
    rfl

/-- A header line with one colon (and LF terminator) parses to one pushed
field: name from before the colon, value the cleaned remainder. -/
lemma processLine_single (a b : List Char) (acc : Header)
    (hca : ':' ∉ a) (hcb : ':' ∉ b) (hna : '\n' ∉ a) (hnb : '\n' ∉ b) :
    processLine (a ++ ':' :: b ++ ['\n']) acc =
      (if toLowerL (trimBoth (decode a)) = [] then
        .error (.format "empty header field name")
       else .ok (Header.push acc (toLowerL (trimBoth (decode a)))
         (trimEndM '\r' (trimEndM '\n' (trimStartWs (decode b)))))) := by
  have hre : a ++ ':' :: b ++ ['\n'] = (a ++ ':' :: b) ++ ['\n'] := by
    simp [List.append_assoc]
  have hX : '\n' ∉ a ++ ':' :: b := by
    simp only [List.mem_append, List.mem_cons, not_or]
    exact ⟨hna, by decide, hnb⟩
  unfold processLine
  rw [hre, clean_line_append _ hX]
  rw [splitChar_append_cons ':' a b hca, splitChar_not_mem ':' b hcb]

/-- The key conditions a table must satisfy to survive the read-back. -/
def goodKey (k : List Char) : Prop :=
  k ≠ [] ∧ trimBoth k = k ∧ toLowerL k = k ∧ ∀ c ∈ k, c.toNat < 128

/-- The value-list conditions: exactly one value, no leading whitespace, no
trailing LF or CR. -/
def goodVal (vs : List (List Char)) : Prop :=
  ∃ v, vs = [v] ∧ trimStartWs v = v ∧ trimEndM '\n' v = v ∧ trimEndM '\r' v = v

lemma roundtrip_loop : ∀ (h acc : Header) (fuel n : Nat),
    h.Pairwise (fun x y => keyLtB x.1 y.1 = true) →
    (∀ kv ∈ h, goodKey kv.1) →
    (∀ kv ∈ h, goodVal kv.2) →
    (∀ x ∈ acc, ∀ y ∈ h, keyLtB x.1 y.1 = true) →
    (Header.write_to h).1.length ≤ fuel →
    (readLinesLoopF fuel (Header.write_to h).1 acc n).1 = .ok (acc ++ h) := by
  intro h
  induction h with
  | nil =>
    intro acc fuel n _ _ _ _ _
    show (readLinesLoopF fuel [] acc n).1 = .ok (acc ++ [])
    rw [loop_nil, List.append_nil]
  | cons hd t ih =>
    intro acc fuel n hsort hkeys hvals hinv hfuel
    obtain ⟨k, vs⟩ := hd
    obtain ⟨v, hv, hv1, hv2, hv3⟩ := hvals (k, vs) (by simp)
    obtain ⟨hk0, hk1, hk2, _⟩ := hkeys (k, vs) (by simp)
    subst hv
    have hw : (Header.write_to ((k, [v]) :: t)).1 =
        (encode k ++ ':' :: ' ' :: encode v) ++
          '\n' :: (Header.write_to t).1 := by
      show (encode k ++ ':' :: ' ' :: encode (joinComma [v]) ++ ['\n']) ++
          (Header.write_to t).1 = _
      show (encode k ++ ':' :: ' ' :: encode v ++ ['\n']) ++
          (Header.write_to t).1 = _
      simp [List.append_assoc]
    have hnX : '\n' ∉ encode k ++ ':' :: ' ' :: encode v := by
      simp only [List.mem_append, List.mem_cons, not_or]
      exact ⟨newline_not_mem_encode k, by decide, by decide,
        newline_not_mem_encode v⟩
    obtain ⟨fuel', rfl⟩ : ∃ f', fuel = f' + 1 := by
      cases fuel with
      | zero =>
        rw [hw] at hfuel
        simp [List.length_append] at hfuel
      | succ m => exact ⟨m, rfl⟩
    have hne : (Header.write_to ((k, [v]) :: t)).1 ≠ [] := by
      rw [hw]
      simp
    have hrl : readLine (Header.write_to ((k, [v]) :: t)).1 =
        ((encode k ++ ':' :: ' ' :: encode v) ++ ['\n'],
          (Header.write_to t).1) := by
      rw [hw]
      exact readLine_append _ _ hnX
    have hproc : processLine
        ((encode k ++ ':' :: ' ' :: encode v) ++ ['\n']) acc =
        .ok (acc ++ [(k, [v])]) := by
      rw [show (encode k ++ ':' :: ' ' :: encode v) ++ ['\n'] =
          encode k ++ ':' :: (' ' :: encode v) ++ ['\n'] by
        simp [List.append_assoc]]
      rw [processLine_single (encode k) (' ' :: encode v) acc
        (colon_not_mem_encode k)
        (by simp only [List.mem_cons, not_or]
            exact ⟨by decide, colon_not_mem_encode v⟩)
        (newline_not_mem_encode k)
        (by simp only [List.mem_cons, not_or]
            exact ⟨by decide, newline_not_mem_encode v⟩)]
      rw [decode_encode k, hk1, hk2, if_neg hk0]
      rw [decode_space_encode v]
      rw [show trimStartWs (' ' :: v) = trimStartWs v by
        unfold trimStartWs
        rw [List.dropWhile_cons, if_pos (by decide)]]
      rw [hv1, hv2, hv3]
      rw [push_append acc k v (fun x hx => hinv x hx (k, [v]) (by simp))]
    rw [loop_step_ok fuel' _ acc (acc ++ [(k, [v])]) n hne
      (by rw [hrl]; exact hproc)]
    rw [hrl]
    have hinv2 : ∀ x ∈ acc ++ [(k, [v])], ∀ y ∈ t, keyLtB x.1 y.1 = true := by
      intro x hx y hy
      rcases List.mem_append.mp hx with hx | hx
      · exact hinv x hx y (by simp [hy])
      · rw [show x = (k, [v]) by simpa using hx]
        exact (List.pairwise_cons.mp hsort).1 y hy
    have hfuel2 : (Header.write_to t).1.length ≤ fuel' := by
      rw [hw] at hfuel
      simp only [List.length_append, List.length_cons] at hfuel
      omega
    rw [ih (acc ++ [(k, [v])]) fuel' _
      (List.pairwise_cons.mp hsort).2
      (fun kv hkv => hkeys kv (by simp [hkv]))
      (fun kv hkv => hvals kv (by simp [hkv]))
      hinv2 hfuel2]
    simp [List.append_assoc]

/-- C2 (amended): round trip holds for single-valued tables.  For every
header table whose field names are nonempty lowercase ASCII with no
surrounding whitespace, and where each name maps to exactly one value with
no leading whitespace and no trailing CR or LF, and whose serialization
fits the 1,024,000-byte budget, `read_from(write_to(H)) = Ok H`.  (A field
with several values does not round-trip: it comes back as one comma-joined
value — see the counterexample.) -/
theorem c2_roundtrip_single_valued (h : Header)
    (hsorted : h.Pairwise (fun x y => keyLtB x.1 y.1 = true))
    (hkeys : ∀ kv ∈ h, goodKey kv.1)
    (hvals : ∀ kv ∈ h, goodVal kv.2)
    (hsize : utf8Len (Header.write_to h).1 ≤ 1024000) :
    Header.read_from (Header.write_to h).1 = .ok h := by
  have hlen : (Header.write_to h).1.length ≤ maxHeaderSize := by
    have := len_le_utf8Len (Header.write_to h).1
    show _ ≤ 1024 * 1000
    omega
  show (headerReadC (Header.write_to h).1).1 = .ok h
  unfold headerReadC
  rw [List.take_of_length_le hlen]
  have := roundtrip_loop h [] (Header.write_to h).1.length 0 hsorted hkeys hvals
    (by intro x hx; cases hx) (le_refl _)
  rw [this]
  rfl

/-- Witness for C2 (amended) at the table {a ↦ [x], b ↦ [y]}. -/
theorem c2_roundtrip_single_valued_witness :
    ([(cs "a", [cs "x"]), (cs "b", [cs "y"])] : Header).Pairwise
        (fun x y => keyLtB x.1 y.1 = true) ∧
    Header.read_from
        (Header.write_to [(cs "a", [cs "x"]), (cs "b", [cs "y"])]).1 =
      .ok [(cs "a", [cs "x"]), (cs "b", [cs "y"])] := by
  constructor
  · decide
  · exact c2_roundtrip_single_valued [(cs "a", [cs "x"]), (cs "b", [cs "y"])]
      (by decide)
      (by intro kv hkv
          rcases List.mem_cons.mp hkv with h | h
          · rw [h]; exact ⟨by decide, by decide, by decide, by decide⟩
          · rw [show kv = (cs "b", [cs "y"]) by simpa using h]
            exact ⟨by decide, by decide, by decide, by decide⟩)
      (by intro kv hkv
          rcases List.mem_cons.mp hkv with h | h
          · rw [h]; exact ⟨cs "x", rfl, by decide, by decide, by decide⟩
          · rw [show kv = (cs "b", [cs "y"]) by simpa using h]
            exact ⟨cs "y", rfl, by decide, by decide, by decide⟩)
      (by decide)

/- ### Frame reader and gate, src/frame/mod.rs -/

/-- MAX_COMMAND_SIZE (src/frame/mod.rs line 25). -/
def maxCommandSize : Nat := 1024

/-- `Frame::read_command` (src/frame/mod.rs lines 325-340): read one line
from the 1024-byte-limited region; 0 bytes is "empty command"; trim
whitespace; empty is "empty command"; else exact-match parse, with unknown
verbs failing "invalid command".  Returns the result and chars consumed. -/
def readCommand (input : List Char) : Except ReadError Command × Nat :=
  if (readLine (input.take maxCommandSize)).1 = [] then
    (.error (.format "empty command"), 0)
  else if trimBoth (readLine (input.take maxCommandSize)).1 = [] then
    (.error (.format "empty command"), (readLine (input.take maxCommandSize)).1.length)
  else
    match cmdFromStr (trimBoth (readLine (input.take maxCommandSize)).1) with
    | some c => (.ok c, (readLine (input.take maxCommandSize)).1.length)
    | none => (.error (.format "invalid command"),
        (readLine (input.take maxCommandSize)).1.length)

def isDigitC (c : Char) : Bool := '0' ≤ c && c ≤ '9'

def digitsVal (l : List Char) : Nat :=
  l.foldl (fun acc c => acc * 10 + (c.toNat - 48)) 0

/-- Rust `str::parse::<u64>` (used for content-length): an optional leading
`+`, then at least one ASCII digit, value within the u64 range. -/
def parseU64 (s : List Char) : Option Nat :=
  if ((match s with | '+' :: rest => rest | _ => s) ≠ [] ∧
      (match s with | '+' :: rest => rest | _ => s).all isDigitC ∧
      digitsVal (match s with | '+' :: rest => rest | _ => s) <
        18446744073709551616) then
    some (digitsVal (match s with | '+' :: rest => rest | _ => s))
  else none

/-- The body handle variants `BodyBuilder::build` constructs (src/frame/
mod.rs lines 273-283): with a content-length, a LimitedReader chained with a
NUL-DelimitedReader (BiReader); without one, a NUL-DelimitedReader alone.
`LimitedReader` and `BiReader` are imported from the io module but their
definitions are absent from src/.  Modelled from the spec: §4.4 (the
length-limited reader yields up to its remaining count, then EOF) and
§3/§4.6 (draining the length-bounded body consumes the declared bytes and
then reads through the terminating null). -/
inductive BodyH where
  | limitedThenDelim : Nat → Bool → BodyH
  | delim : Bool → BodyH
deriving DecidableEq

/-- Consume up to and including the first NUL (a drained DelimitedReader). -/
def dropThroughNull (l : List Char) : List Char :=
  (l.dropWhile (fun c => !(c == '\x00'))).tail

/-- The bytes a full drain of the body would still deliver to the caller;
the body has reached EOF exactly when this is empty. -/
def bodyDelivered : BodyH → List Char → List Char
  | .limitedThenDelim r done, input =>
    input.take r ++
      (if done then [] else (input.drop r).takeWhile (fun c => !(c == '\x00')))
  | .delim done, input =>
    if done then [] else input.takeWhile (fun c => !(c == '\x00'))

/-- `Body::close` (src/frame/mod.rs lines 244-247): copy the body reader to
a sink until EOF; the source is advanced past the body and its
terminating null. -/
def bodyClose : BodyH → List Char → List Char
  | .limitedThenDelim r done, input =>
    if done then input.drop r else dropThroughNull (input.drop r)
  | .delim done, input => if done then input else dropThroughNull input

/-- A parsed frame: command, header table, body handle (src/frame/mod.rs
lines 286-291; the guard it holds is the latch count in `RState`). -/
structure FrameV where
  command : Command
  header : Header
  body : BodyH
deriving DecidableEq

/-- `FrameReader` state (src/frame/mod.rs lines 349-360): the gate's latch
counter (`Cell<isize>`, 0 = unused) and the shared byte source. -/
structure RState where
  latch : Int
  input : List Char
deriving DecidableEq

/-- `FrameReader::read_frame` (src/frame/mod.rs lines 362-384): try to latch
the gate — if the latch is nonzero fail with the BUSY latch error at once,
consuming nothing; else read the command line, the header block, look up
`content-length` (first value, parsed as u64) and build the body handle.
On success the latch is held (1) by the returned frame; on a parse error the
guard is dropped, restoring the latch.  The `?` conversions for LatchError
and ParseIntError are absent from src/; modelled from the spec (§7): BUSY
for re-entry, FORMAT for an unparseable content-length. -/
def readFrame (s : RState) : Except ReadError FrameV × RState :=
  if s.latch ≠ 0 then (.error .busy, s)
  else
    match readCommand s.input with
    | (.error e, n1) => (.error e, ⟨s.latch, s.input.drop n1⟩)
    | (.ok cmd, n1) =>
      match headerReadC (s.input.drop n1) with
      | (.error e, n2) => (.error e, ⟨s.latch, (s.input.drop n1).drop n2⟩)
      | (.ok hdr, n2) =>
        match (Header.get hdr (cs "content-length")).bind List.head? with
        | some v =>
          match parseU64 v with
          | some len =>
            (.ok ⟨cmd, hdr, .limitedThenDelim len false⟩,
             ⟨1, (s.input.drop n1).drop n2⟩)
          | none =>
            (.error (.format "invalid content-length"),
             ⟨s.latch, (s.input.drop n1).drop n2⟩)
        | none =>
          (.ok ⟨cmd, hdr, .delim false⟩, ⟨1, (s.input.drop n1).drop n2⟩)

/-- `Frame::drop` (src/frame/mod.rs lines 343-347) together with the guard
release: `body.close()` force-drains the body, then the Guard's `Drop`
decrements the latch. -/
def dropFrame (f : FrameV) (s : RState) : RState :=
  ⟨s.latch - 1, bodyClose f.body s.input⟩

lemma readCommand_not_busy (input : List Char) :
    (readCommand input).1 ≠ .error .busy := by
  unfold readCommand
  split
  · simp
  · split
    · simp
    · split <;> simp

lemma processLine_not_busy (line : List Char) (h : Header) :
    processLine line h ≠ .error .busy := by
  unfold processLine
  split
  · simp
  · simp
  · split <;> simp

lemma loop_not_busy : ∀ (f : Nat) (input : List Char) (h : Header) (n : Nat),
    (readLinesLoopF f input h n).1 ≠ .error .busy := by
  intro f
  induction f with
  | zero => intro input h n; simp [readLinesLoopF]
  | succ m ih =>
    intro input h n
    unfold readLinesLoopF
    split
    · simp
    · split
      · rename_i e he
        intro hc
        simp only [Prod.fst] at hc
        rw [show e = ReadError.busy by
          injection hc] at he
        exact processLine_not_busy _ _ he
      · exact ih _ _ _

lemma readFrame_latch0_not_busy (s : RState) (h : s.latch = 0) :
    (readFrame s).1 ≠ .error .busy := by
  unfold readFrame
  rw [if_neg (by rw [h]; simp)]
  split
  · rename_i e n1 he
    intro hc
    simp only [Prod.fst] at hc
    rw [show e = ReadError.busy by injection hc] at he
    have := readCommand_not_busy s.input
    rw [he] at this
    exact this rfl
  · rename_i cmd n1 he1
    split
    · rename_i e n2 he
      intro hc
      simp only [Prod.fst] at hc
      rw [show e = ReadError.busy by injection hc] at he
      have := loop_not_busy ((s.input.drop n1).take maxHeaderSize).length
        ((s.input.drop n1).take maxHeaderSize) [] 0
      rw [show readLinesLoopF ((s.input.drop n1).take maxHeaderSize).length
          ((s.input.drop n1).take maxHeaderSize) [] 0 =
          headerReadC (s.input.drop n1) from rfl, he] at this
      exact this rfl
    · split
      · split <;> simp
      · simp

/-- C5 (amended): attempting `read_frame` while the gate's latch is held
fails with the BUSY latch error and leaves the reader state — latch and
source position — completely unchanged; and the next `read_frame` is free of
BUSY exactly when the prior frame has been dropped (its drop force-drains
the body and releases the latch).  Merely draining the body to EOF without
dropping the frame does not release the latch — see the counterexample. -/
theorem c5_busy_gate :
    (∀ s : RState, s.latch ≠ 0 → readFrame s = (.error .busy, s)) ∧
    (∀ (s : RState) (f : FrameV), s.latch = 1 →
      (readFrame (dropFrame f s)).1 ≠ .error .busy) := by
  constructor
  · intro s h
    unfold readFrame
    rw [if_pos h]
  · intro s f h
    apply readFrame_latch0_not_busy
    show s.latch - 1 = 0
    rw [h]
    rfl

/-- Witness for C5 (amended): a latched state is refused unchanged, and
after dropping the frame the next read is not BUSY. -/
theorem c5_busy_gate_witness :
    ((⟨1, []⟩ : RState).latch ≠ 0 ∧
      readFrame ⟨1, []⟩ = (.error .busy, ⟨1, []⟩)) ∧
    ((⟨1, cs "CONNECT\n"⟩ : RState).latch = 1 ∧
      (readFrame (dropFrame ⟨.connect, [], .delim true⟩
        ⟨1, cs "CONNECT\n"⟩)).1 ≠ .error .busy) :=
  ⟨⟨by decide, c5_busy_gate.1 ⟨1, []⟩ (by decide)⟩,
   ⟨rfl, c5_busy_gate.2 ⟨1, cs "CONNECT\n"⟩ ⟨.connect, [], .delim true⟩ rfl⟩⟩

/-- Counterexample for C5 as stated: after successfully reading the frame of
`CONNECT\n` (whose null-delimited body over the exhausted source is already
at EOF — a drain would deliver no bytes), the latch is held and the source
is positioned at EOF; a second `read_frame` then fails BUSY even though the
prior frame's body has reached EOF — success requires the frame to be
dropped, not merely its body to be at EOF. -/
theorem c5_busy_counterexample :
    (readFrame ⟨0, cs "CONNECT\n"⟩).1 = .ok ⟨.connect, [], .delim false⟩ ∧
    (readFrame ⟨0, cs "CONNECT\n"⟩).2 = ⟨1, []⟩ ∧
    bodyDelivered (BodyH.delim false) [] = [] ∧
    readFrame ⟨1, []⟩ = (.error .busy, ⟨1, []⟩) := by
  refine ⟨by decide, by decide, by decide, by decide⟩
